import Mathlib

/-!
# Verification of the APP3 social-network graph engine

Shallow embedding of the algorithmic core of `APP3_final.py` / `APP3_v1.py`:
edge-list parsing (`read_csv_graph`), adjacency-matrix construction
(`create_adjacency_matrix`), rankings (`find_leaders`, `find_best_followers`,
`find_followers`), breadth-first shortest path (`bfs_shortest_path`) and the
plain-text matrix export (`save_matrix`).

Machine conventions: Python ints are modelled as `Int` where sign matters
(parsed node ids) and as `Nat` for matrix indices/entries; Python exceptions
become `Except`; Python `None` becomes `Option.none`; a Python `set` becomes
a `Finset`.
-/

/-- Errors raised by the Python code: `max()` on an empty sequence
(`ValueError`, the spec's `EmptyGraphError`), an out-of-range index
(`IndexError`, the spec's `IndexOutOfRangeError`), and `np.zeros` with a
negative dimension (`ValueError`). -/
inductive GraphErr where
  | emptyGraph : GraphErr
  | indexOutOfRange : GraphErr
  | negativeSize : GraphErr
deriving DecidableEq, Repr

/-- Error raised inside the row loop of `read_csv_graph` that the
`except ValueError` handler does not catch: `row[1]` on a one-field row. -/
inductive RowErr where
  | indexError : RowErr
deriving DecidableEq, Repr

instance exceptDecEq {ε α : Type} [DecidableEq ε] [DecidableEq α] :
    DecidableEq (Except ε α)
  | .error e, .error f =>
    decidable_of_iff (e = f) (by simp)
  | .ok x, .ok y =>
    decidable_of_iff (x = y) (by simp)
  | .error _, .ok _ => isFalse (by simp)
  | .ok _, .error _ => isFalse (by simp)

/-! ## Python `int(...)` on a string -/

/-- ASCII lower-casing of one character (`str.lower` restricted to ASCII). -/
def lowerChar (c : Char) : Char :=
  if 65 ≤ c.toNat ∧ c.toNat ≤ 90 then Char.ofNat (c.toNat + 32) else c

/-- ASCII whitespace, as stripped by Python `int(str)`. -/
def isSpaceChar (c : Char) : Bool :=
  c == ' ' || c == '\t' || c == '\n' || c == '\r'

/-- Strip leading and trailing whitespace from a character list. -/
def trimChars (cs : List Char) : List Char :=
  ((cs.dropWhile isSpaceChar).reverse.dropWhile isSpaceChar).reverse

/-- Value of a decimal digit character, if it is one. -/
def digitVal? (c : Char) : Option Nat :=
  if 48 ≤ c.toNat ∧ c.toNat ≤ 57 then some (c.toNat - 48) else none

/-- Decimal value of a nonempty all-digit character list. -/
def digitsVal? (cs : List Char) : Option Nat :=
  match cs with
  | [] => none
  | _ :: _ =>
    cs.foldl
      (fun acc c =>
        match acc, digitVal? c with
        | some a, some d => some (a * 10 + d)
        | _, _ => none)
      (some 0)

/-- Python `int(s)` for a string: optional surrounding whitespace, an optional
sign, then at least one decimal digit; `none` models `ValueError`.
(Underscore digit separators and non-ASCII digits are not modelled.) -/
def pyInt? (s : String) : Option Int :=
  match trimChars s.toList with
  | '+' :: cs => (digitsVal? cs).map (fun n => (n : Int))
  | '-' :: cs => (digitsVal? cs).map (fun n => -(n : Int))
  | cs => (digitsVal? cs).map (fun n => (n : Int))

/-! ## EdgeListParser: `read_csv_graph` -/

/-- Accumulator of the row loop: the `nodes` set and the `edges` list. -/
abbrev ParseAcc := Finset Int × List (Int × Int)

/-- One iteration of the row loop of `read_csv_graph`:
empty rows and header rows (first field `id1`, case-insensitively) are
skipped; `int(row[0])`/`int(row[1])` failures (`ValueError`) skip the row;
`row[1]` on a one-field row raises an uncaught `IndexError`. -/
def parseRow (directed : Bool) (acc : ParseAcc) (row : List String) :
    Except RowErr ParseAcc :=
  match row with
  | [] => .ok acc
  | f0 :: rest =>
    if f0.toList.map lowerChar = [ 'i', 'd', '1' ] then .ok acc
    else
      match pyInt? f0 with
      | none => .ok acc
      | some u =>
        match rest with
        | [] => .error .indexError
        | f1 :: _ =>
          match pyInt? f1 with
          | none => .ok acc
          | some v =>
            .ok (insert u (insert v acc.1),
                 acc.2 ++ (u, v) :: (if directed then [] else [(v, u)]))

/-- The row loop of `read_csv_graph` over all input rows
(the body shared by `APP3_v1.py`, where an `IndexError` propagates,
and `APP3_final.py`, where it is caught by the outer handler). -/
def readRows (rows : List (List String)) (directed : Bool) :
    Except RowErr ParseAcc :=
  rows.foldlM (parseRow directed) (∅, [])

/-- `read_csv_graph` of `APP3_final.py`: the outer `except Exception`
handler turns any uncaught in-loop error into the result `([], [])`. -/
def read_csv_graph (rows : List (List String)) (directed : Bool) : ParseAcc :=
  match readRows rows directed with
  | .ok acc => acc
  | .error _ => (∅, [])

/-! ## AdjacencyMatrix: `create_adjacency_matrix` -/

/-- Entry of a row-list matrix, `0` outside the stored rectangle. -/
def getEntry (M : List (List Nat)) (i j : Nat) : Nat :=
  (M.getD i []).getD j 0

/-- Row `u` of the matrix (`matrix[u]`), empty outside the row range. -/
def rowOf (M : List (List Nat)) (u : Nat) : List Nat :=
  M.getD u []

/-- The matrix is square: every row is as long as the list of rows. -/
def Square (M : List (List Nat)) : Prop :=
  ∀ row ∈ M, row.length = M.length

instance (M : List (List Nat)) : Decidable (Square M) :=
  List.decidableBAll _ M

/-- The matrix is symmetric on its index range. -/
def SymmMatrix (M : List (List Nat)) : Prop :=
  ∀ i < M.length, ∀ j < M.length, getEntry M i j = getEntry M j i

instance (M : List (List Nat)) : Decidable (SymmMatrix M) :=
  Nat.decidableBallLT _ _

/-- NumPy basic indexing into an axis of length `n`: indices in `[0, n)` are
taken as is, indices in `[-n, 0)` wrap around, anything else raises
`IndexError` (modelled by `none`). -/
def npIndex (n : Nat) (i : Int) : Option Nat :=
  if 0 ≤ i then (if i < (n : Int) then some i.toNat else none)
  else (if -(n : Int) ≤ i then some (i + (n : Int)).toNat else none)

/-- `np.zeros((n, n), dtype=int)`. -/
def zeros (n : Nat) : List (List Nat) :=
  List.replicate n (List.replicate n 0)

/-- `matrix[u][v] = 1` after both indices resolved to cells in range. -/
def setEntry (M : List (List Nat)) (i j : Nat) : List (List Nat) :=
  M.set i ((M.getD i []).set j 1)

/-- One `matrix[u][v] = 1` statement of the edge loop, with NumPy index
semantics on a `size`-sized matrix. -/
def applyEdge (size : Nat) (mat : List (List Nat)) (e : Int × Int) :
    Except GraphErr (List (List Nat)) :=
  match npIndex size e.1, npIndex size e.2 with
  | some i, some j => .ok (setEntry mat i j)
  | _, _ => .error .indexOutOfRange

/-- `create_adjacency_matrix(nodes, edges)`: `size = max(nodes) + 1`
(`ValueError` on an empty set), an all-zero `size × size` matrix, then
`matrix[u][v] = 1` for every edge, with NumPy index semantics. -/
def create_adjacency_matrix (nodes : Finset Int) (edges : List (Int × Int)) :
    Except GraphErr (List (List Nat)) :=
  if h : nodes.Nonempty then
    if 0 ≤ nodes.max' h + 1 then
      edges.foldlM (applyEdge (nodes.max' h + 1).toNat)
        (zeros (nodes.max' h + 1).toNat)
    else .error .negativeSize
  else .error .emptyGraph

/-! ## RankingEngine: `find_leaders`, `find_followers`, `find_best_followers` -/

/-- Number of columns of the row-list matrix (length of its first row). -/
def numCols (M : List (List Nat)) : Nat :=
  (M.headD []).length

/-- `np.sum(matrix, axis=0)`: the vector of column sums. -/
def colSums (M : List (List Nat)) : List Nat :=
  (List.range (numCols M)).map (fun j => (M.map (fun r => r.getD j 0)).sum)

/-- `np.sum(matrix, axis=1)`: the vector of row sums. -/
def rowSums (M : List (List Nat)) : List Nat :=
  M.map List.sum

/-- Insert index `i` into an index list sorted by descending key
(ties by ascending index). -/
def insertDesc (key : Nat → Nat) (i : Nat) : List Nat → List Nat
  | [] => [i]
  | j :: rest =>
    if key j < key i ∨ (key i = key j ∧ i ≤ j) then i :: j :: rest
    else j :: insertDesc key i rest

/-- Sorting kernel of the `argsortDesc` model. -/
def insertionSortDesc (key : Nat → Nat) : List Nat → List Nat
  | [] => []
  | i :: rest => insertDesc key i (insertionSortDesc key rest)

/-- Model of `np.argsort(-x)`: the indices `0, ..., len(x)-1` ordered by
descending value, equal values by ascending index.  NumPy's default kind
(`quicksort`/introsort) does not specify the order of equal values; for the
small arrays it breaks ties by original position (insertion sort), which is
the behaviour modelled here. -/
def argsortDesc (xs : List Nat) : List Nat :=
  insertionSortDesc (fun i => xs.getD i 0) (List.range xs.length)

/-- `find_leaders(matrix, directed, top_n)`: scores are column sums when
directed, row sums otherwise; returns the first `top_n` argsorted indices
together with the score vector. -/
def find_leaders (M : List (List Nat)) (directed : Bool) (top_n : Nat) :
    List Nat × List Nat :=
  let incoming := if directed then colSums M else rowSums M
  ((argsortDesc incoming).take top_n, incoming)

/-- `find_best_followers(matrix, top_n)`: scores are always row sums. -/
def find_best_followers (M : List (List Nat)) (top_n : Nat) :
    List Nat × List Nat :=
  ((argsortDesc (rowSums M)).take top_n, rowSums M)

/-- `find_followers(matrix, node, directed)`: the indices of the 1-entries of
column `node` (directed) or of row `node` (undirected); `matrix[:, node]`
and `matrix[node, :]` raise `IndexError` when `node` is out of range. -/
def find_followers (M : List (List Nat)) (node : Nat) (directed : Bool) :
    Except GraphErr (List Nat) :=
  if node < M.length then
    if directed then
      .ok ((List.range M.length).filter (fun v => getEntry M v node = 1))
    else
      .ok ((List.range (rowOf M node).length).filter
        (fun v => getEntry M node v = 1))
  else .error .indexOutOfRange

/-! ## PathFinder: `bfs_shortest_path` -/

/-- `np.where(matrix[node] == 1)[0]`: the ascending indices of the 1-entries
of row `node`. -/
def nbrs (M : List (List Nat)) (node : Nat) : List Nat :=
  (List.range (rowOf M node).length).filter (fun v => getEntry M node v = 1)

/-- The inner `for neighbor in neighbors` loop: returns the finished path as
soon as a neighbor equals `goal` (`Sum.inl`), otherwise the list of extended
paths appended to the queue (`Sum.inr`). -/
def processNbrs (path : List Nat) (goal : Nat) :
    List Nat → Sum (List Nat) (List (List Nat))
  | [] => .inr []
  | v :: rest =>
    if v = goal then .inl (path ++ [goal])
    else
      match processNbrs path goal rest with
      | .inl found => .inl found
      | .inr exts => .inr ((path ++ [v]) :: exts)

/-- The `while queue` loop of `bfs_shortest_path`: pop the front path, skip
it if its endpoint is visited, otherwise enumerate the endpoint's row
(raising `IndexError` when the endpoint is out of range), returning on the
goal or enqueueing the extensions and marking the endpoint visited. -/
def bfsLoop (M : List (List Nat)) (goal : Nat) :
    List (List Nat) → Finset Nat → Except GraphErr (Option (List Nat))
  | [], _ => .ok none
  | path :: rest, visited =>
    let node := path.getLastD 0
    if hv : node ∈ visited then
      bfsLoop M goal rest visited
    else if hn : node < M.length then
      match processNbrs path goal (nbrs M node) with
      | .inl found => .ok (some found)
      | .inr exts => bfsLoop M goal (rest ++ exts) (insert node visited)
    else .error .indexOutOfRange
termination_by queue visited =>
  ((Finset.range M.length \ visited).card, queue.length)
decreasing_by
  · exact Prod.Lex.right _ (Nat.lt_succ_self _)
  · apply Prod.Lex.left
    have hmem : path.getLastD 0 ∈ Finset.range M.length \ visited := by
      simp only [Finset.mem_sdiff, Finset.mem_range]
      exact ⟨hn, hv⟩
    have hsub : Finset.range M.length \ insert (path.getLastD 0) visited =
        (Finset.range M.length \ visited).erase (path.getLastD 0) := by
      ext a
      simp only [Finset.mem_sdiff, Finset.mem_insert, Finset.mem_erase,
        Finset.mem_range]
      tauto
    rw [hsub]
    exact Finset.card_erase_lt_of_mem hmem

/-- `bfs_shortest_path(matrix, start, goal)`: `[start]` when the endpoints
coincide (before any bounds check), otherwise the BFS loop starting from the
queue `[[start]]` and an empty visited set. -/
def bfs_shortest_path (M : List (List Nat)) (start goal : Nat) :
    Except GraphErr (Option (List Nat)) :=
  if start = goal then .ok (some [start])
  else bfsLoop M goal [[start]] ∅

/-- Fuel-limited copy of `bfsLoop`; `none` means the fuel ran out. -/
def bfsLoopF (M : List (List Nat)) (goal : Nat) :
    Nat → List (List Nat) → Finset Nat →
      Option (Except GraphErr (Option (List Nat)))
  | 0, _, _ => none
  | _ + 1, [], _ => some (.ok none)
  | fuel + 1, path :: rest, visited =>
    let node := path.getLastD 0
    if node ∈ visited then
      bfsLoopF M goal fuel rest visited
    else if node < M.length then
      match processNbrs path goal (nbrs M node) with
      | .inl found => some (.ok (some found))
      | .inr exts => bfsLoopF M goal fuel (rest ++ exts) (insert node visited)
    else some (.error .indexOutOfRange)

/-- Fuel-limited copy of `bfs_shortest_path`. -/
def bfsF (M : List (List Nat)) (start goal : Nat) (fuel : Nat) :
    Option (Except GraphErr (Option (List Nat))) :=
  if start = goal then some (.ok (some [start]))
  else bfsLoopF M goal fuel [[start]] ∅

/-! ## Walks of the adjacency relation -/

/-- The directed edge relation of the matrix: `matrix[u][v] = 1` with `v` in
the range of row `u`. -/
def edgeP (M : List (List Nat)) (u v : Nat) : Prop :=
  v ∈ nbrs M u

instance (M : List (List Nat)) (u v : Nat) : Decidable (edgeP M u v) :=
  inferInstanceAs (Decidable (v ∈ nbrs M u))

/-- A walk from `s` to `g` along existing edges: a nonempty node sequence
whose head is `s`, whose last element is `g`, and whose consecutive pairs
are edges. -/
def Walk (M : List (List Nat)) (s g : Nat) (p : List Nat) : Prop :=
  p.head? = some s ∧ p.getLast? = some g ∧ List.Chain' (edgeP M) p

instance (M : List (List Nat)) (s g : Nat) (p : List Nat) :
    Decidable (Walk M s g p) :=
  inferInstanceAs (Decidable (_ ∧ _ ∧ _))

/-! ## MatrixExporter: `save_matrix` with `np.savetxt(..., fmt=d)` -/

/-- Decimal digits of `n` (the `%d` format for naturals), with structural
fuel so that it evaluates by `rfl`. -/
def digitsAux : Nat → Nat → List Char
  | 0, _ => []
  | fuel + 1, n =>
    if n < 10 then [Char.ofNat (48 + n)]
    else digitsAux fuel (n / 10) ++ [Char.ofNat (48 + n % 10)]

/-- Decimal digit characters of `n`. -/
def digitsOf (n : Nat) : List Char :=
  digitsAux (n + 1) n

/-- Join tokens with the single-space delimiter of `np.savetxt`. -/
def joinSpace : List (List Char) → List Char
  | [] => []
  | [t] => t
  | t :: ts => t ++ ' ' :: joinSpace ts

/-- One `np.savetxt` row: entries formatted with `%d`, joined by the default
single-space delimiter. -/
def serializeRow (r : List Nat) : List Char :=
  joinSpace (r.map digitsOf)

/-- The plain-format export of `save_matrix`: every row followed by the
default newline, concatenated into one character stream. -/
def save_matrix_plain (M : List (List Nat)) : List Char :=
  (M.map (fun r => serializeRow r ++ ['\n'])).flatten

/-- Split a character stream at every occurrence of `c`. -/
def splitOnChar (c : Char) : List Char → List (List Char)
  | [] => [[]]
  | x :: xs =>
    if x = c then [] :: splitOnChar c xs
    else
      match splitOnChar c xs with
      | [] => [[x]]
      | y :: ys => (x :: y) :: ys

/-- Decimal value of a digit token. -/
def parseNatTok (t : List Char) : Nat :=
  t.foldl (fun a c => a * 10 + (c.toNat - 48)) 0

/-- Modelled from the spec: the repository has no matrix importer, so the
reverse direction of the export round-trip (section 8 of the spec,
"parsing the exported plain-text matrix back into a 2D integer array") is
modelled from the spec's format description: one row per line, each line
space-separated integers; blank lines are not rows. -/
def parse_matrix_plain (cs : List Char) : List (List Nat) :=
  ((splitOnChar '\n' cs).filter (fun l => l ≠ [])).map
    (fun line => (splitOnChar ' ' line).map parseNatTok)

/-! ## Basic lemmas about rows, neighbours and walks -/

lemma getLast?_mem {α : Type} {l : List α} {a : α} (h : l.getLast? = some a) :
    a ∈ l := by
  obtain ⟨h', rfl⟩ := List.mem_getLast?_eq_getLast (Option.mem_def.mpr h)
  exact List.getLast_mem h'

lemma head?_mem {α : Type} {l : List α} {a : α} (h : l.head? = some a) :
    a ∈ l := by
  rw [List.eq_cons_of_mem_head? (Option.mem_def.mpr h)]
  exact List.mem_cons_self a _

lemma rowOf_mem {M : List (List Nat)} {u : Nat} (h : u < M.length) :
    rowOf M u ∈ M := by
  rw [rowOf, List.getD_eq_getElem?_getD, List.getElem?_eq_getElem h]
  exact List.getElem_mem h

lemma rowOf_length {M : List (List Nat)} (hsq : Square M) {u : Nat}
    (h : u < M.length) : (rowOf M u).length = M.length :=
  hsq _ (rowOf_mem h)

lemma rowOf_eq_nil {M : List (List Nat)} {u : Nat} (h : M.length ≤ u) :
    rowOf M u = [] :=
  List.getD_eq_default _ _ h

lemma mem_nbrs {M : List (List Nat)} {u v : Nat} :
    v ∈ nbrs M u ↔ v < (rowOf M u).length ∧ getEntry M u v = 1 := by
  simp [nbrs, List.mem_filter, List.mem_range]

lemma edgeP_lt_right {M : List (List Nat)} (hsq : Square M) {u v : Nat}
    (h : edgeP M u v) : v < M.length := by
  rcases mem_nbrs.mp h with ⟨hv, _⟩
  by_cases hu : u < M.length
  · rwa [rowOf_length hsq hu] at hv
  · rw [rowOf_eq_nil (le_of_not_lt hu)] at hv
    simp at hv

lemma chain'_tail_lt {M : List (List Nat)} (hsq : Square M) :
    ∀ {p : List Nat}, List.Chain' (edgeP M) p → ∀ x ∈ p.tail, x < M.length := by
  intro p
  induction p with
  | nil => simp
  | cons a rest ih =>
    intro hc x hx
    cases rest with
    | nil => simp at hx
    | cons b rest' =>
      rw [List.chain'_cons] at hc
      rcases List.mem_cons.mp hx with rfl | hx'
      · exact edgeP_lt_right hsq hc.1
      · exact ih hc.2 x hx'

lemma walk_ne_nil {M : List (List Nat)} {s g : Nat} {p : List Nat}
    (h : Walk M s g p) : p ≠ [] := by
  intro h0
  subst h0
  simp [Walk] at h

lemma walk_nodes_lt {M : List (List Nat)} {s g : Nat} {p : List Nat}
    (hsq : Square M) (hs : s < M.length) (h : Walk M s g p) :
    ∀ x ∈ p, x < M.length := by
  obtain ⟨hh, _, hc⟩ := h
  intro x hx
  cases p with
  | nil => simp at hx
  | cons a rest =>
    simp only [List.head?_cons, Option.some.injEq] at hh
    rcases List.mem_cons.mp hx with rfl | hx'
    · rw [← hh] at hs
      exact hs
    · exact chain'_tail_lt hsq hc x hx'

lemma walk_singleton (M : List (List Nat)) (s : Nat) : Walk M s s [s] :=
  ⟨rfl, rfl, List.chain'_singleton s⟩

lemma walk_length_pos {M : List (List Nat)} {s g : Nat} {p : List Nat}
    (h : Walk M s g p) : 0 < p.length :=
  List.length_pos.mpr (walk_ne_nil h)

lemma walk_length_ge_two {M : List (List Nat)} {s g : Nat} {p : List Nat}
    (h : Walk M s g p) (hne : s ≠ g) : 2 ≤ p.length := by
  obtain ⟨hh, hl, _⟩ := h
  cases p with
  | nil => simp at hh
  | cons a rest =>
    cases rest with
    | nil =>
      simp only [List.head?_cons, Option.some.injEq] at hh
      simp only [List.getLast?_singleton, Option.some.injEq] at hl
      exact absurd (hh.symm.trans hl) hne
    | cons b r => simp [Nat.succ_le_succ, Nat.succ_le_succ_iff]

lemma walk_last_eq {M : List (List Nat)} {s g : Nat} {p : List Nat}
    (h : Walk M s g p) : p.getLastD 0 = g := by
  rw [List.getLastD_eq_getLast?, h.2.1]
  rfl

lemma walk_append_edge {M : List (List Nat)} {s u v : Nat} {p : List Nat}
    (h : Walk M s u p) (he : edgeP M u v) : Walk M s v (p ++ [v]) := by
  obtain ⟨hh, hl, hc⟩ := h
  refine ⟨?_, List.getLast?_concat _, ?_⟩
  · rw [List.head?_append, hh]
    rfl
  · rw [List.chain'_append]
    refine ⟨hc, List.chain'_singleton _, ?_⟩
    intro x hx y hy
    simp only [List.head?_cons, Option.mem_def, Option.some.injEq] at hy
    rw [hl] at hx
    simp only [Option.mem_def, Option.some.injEq] at hx
    subst hx
    subst hy
    exact he

lemma walk_suffix {M : List (List Nat)} {s g u : Nat} {A B : List Nat}
    (h : Walk M s g (A ++ u :: B)) : Walk M u g (u :: B) := by
  obtain ⟨hh, hl, hc⟩ := h
  refine ⟨rfl, ?_, (List.chain'_append.mp hc).2.1⟩
  rw [List.getLast?_append] at hl
  cases hB : (u :: B).getLast? with
  | none => simp at hB
  | some y =>
    rw [hB] at hl
    simp only [Option.or_some, Option.some.injEq] at hl
    rw [hl]

lemma mem_split_last {α : Type} [DecidableEq α] {a : α} :
    ∀ {l : List α}, a ∈ l → ∃ s t, l = s ++ a :: t ∧ a ∉ t := by
  intro l
  induction l with
  | nil => simp
  | cons x xs ih =>
    intro h
    by_cases hmem : a ∈ xs
    · obtain ⟨s, t, rfl, hnt⟩ := ih hmem
      exact ⟨x :: s, t, rfl, hnt⟩
    · have hax : a = x := by
        rcases List.mem_cons.mp h with h1 | h2
        · exact h1
        · exact absurd h2 hmem
      subst hax
      exact ⟨[], xs, rfl, hmem⟩

/-! ## Lemmas about the neighbour loop -/

lemma processNbrs_mem {p : List Nat} {goal : Nat} :
    ∀ {l : List Nat}, goal ∈ l → processNbrs p goal l = .inl (p ++ [goal]) := by
  intro l
  induction l with
  | nil => simp
  | cons v rest ih =>
    intro h
    by_cases hv : v = goal
    · subst hv
      simp [processNbrs]
    · rcases List.mem_cons.mp h with h1 | h2
      · exact absurd h1.symm hv
      · simp [processNbrs, hv, ih h2]

lemma processNbrs_not_mem {p : List Nat} {goal : Nat} :
    ∀ {l : List Nat}, goal ∉ l →
      processNbrs p goal l = .inr (l.map (fun v => p ++ [v])) := by
  intro l
  induction l with
  | nil => simp [processNbrs]
  | cons v rest ih =>
    intro h
    have hv : v ≠ goal := fun hvg => h (hvg ▸ List.mem_cons_self v rest)
    have hrest : goal ∉ rest := fun hg => h (List.mem_cons_of_mem v hg)
    simp [processNbrs, hv, ih hrest]

/-! ## Lemmas for the matrix build -/

lemma npIndex_nonneg_lt {n : Nat} {i : Int} (h0 : 0 ≤ i) (h1 : i < (n : Int)) :
    npIndex n i = some i.toNat := by
  rw [npIndex, if_pos h0, if_pos h1]

lemma foldlM_applyEdge_ok {size : Nat} :
    ∀ edges : List (Int × Int),
      (∀ e ∈ edges, (0 : Int) ≤ e.1 ∧ e.1 < (size : Int) ∧
        (0 : Int) ≤ e.2 ∧ e.2 < (size : Int)) →
      ∀ acc, edges.foldlM (applyEdge size) acc =
        .ok (edges.foldl (fun m e => setEntry m e.1.toNat e.2.toNat) acc) := by
  intro edges
  induction edges with
  | nil => intro _ acc; rfl
  | cons e es ih =>
    intro h acc
    have he := h e (List.mem_cons_self e es)
    have hstep : applyEdge size acc e = .ok (setEntry acc e.1.toNat e.2.toNat) := by
      rw [applyEdge, npIndex_nonneg_lt he.1 he.2.1,
        npIndex_nonneg_lt he.2.2.1 he.2.2.2]
    rw [List.foldlM_cons, hstep]
    exact ih (fun e' h' => h e' (List.mem_cons_of_mem _ h')) _

/-- C8 (claim theorem): `build` fails with `EmptyGraphError` on an empty node
set, and for every non-empty set of non-negative node ids whose edges stay
within `[0, max(nodes)]` it succeeds with a matrix. -/
theorem create_adjacency_matrix_empty_and_success (nodes : Finset Int)
    (edges : List (Int × Int)) (hnn : ∀ x ∈ nodes, (0 : Int) ≤ x) :
    (nodes = ∅ → create_adjacency_matrix nodes edges = .error .emptyGraph) ∧
    (∀ h : nodes.Nonempty,
      (∀ e ∈ edges, 0 ≤ e.1 ∧ e.1 ≤ nodes.max' h ∧
        0 ≤ e.2 ∧ e.2 ≤ nodes.max' h) →
      ∃ M, create_adjacency_matrix nodes edges = .ok M) := by
  constructor
  · intro h
    subst h
    rw [create_adjacency_matrix, dif_neg]
    exact Finset.not_nonempty_empty
  · intro h hedges
    have hm0 : (0 : Int) ≤ nodes.max' h := hnn _ (Finset.max'_mem nodes h)
    have h1 : (0 : Int) ≤ nodes.max' h + 1 := by linarith
    rw [create_adjacency_matrix, dif_pos h]
    simp only [if_pos h1]
    have hcast : (((nodes.max' h + 1).toNat : Nat) : Int) = nodes.max' h + 1 :=
      Int.toNat_of_nonneg h1
    refine ⟨_, foldlM_applyEdge_ok edges ?_ _⟩
    intro e he
    obtain ⟨a, b, c, d⟩ := hedges e he
    exact ⟨a, by rw [hcast]; linarith, c, by rw [hcast]; linarith⟩

/-- C8 (witness): the hypotheses of the claim theorem hold at a concrete
node set and edge list, and the build succeeds there. -/
theorem create_adjacency_matrix_empty_and_success_witness :
    ∃ M, create_adjacency_matrix {0, 1} [(0, 1)] = .ok M :=
  (create_adjacency_matrix_empty_and_success {0, 1} [(0, 1)]
    (by decide)).2 (Finset.insert_nonempty 0 {1}) (by decide)

/-- C7 (claim theorem): `find_followers` fails with `IndexOutOfRangeError`
exactly when the node is outside `[0, size)`; otherwise it returns, in
directed mode, the `v` with `matrix[v][node] = 1`, and in undirected mode
the `v` with `matrix[node][v] = 1`. -/
theorem find_followers_range_and_sets (M : List (List Nat)) (node : Nat)
    (directed : Bool) (hsq : Square M) :
    (find_followers M node directed = .error .indexOutOfRange ↔
      M.length ≤ node) ∧
    (node < M.length → ∃ l, find_followers M node directed = .ok l ∧
      ∀ v, v ∈ l ↔ v < M.length ∧
        (if directed then getEntry M v node else getEntry M node v) = 1) := by
  constructor
  · constructor
    · intro herr
      by_contra hlt
      push_neg at hlt
      rw [find_followers, if_pos hlt] at herr
      cases directed <;> simp at herr
    · intro hge
      rw [find_followers, if_neg (not_lt.mpr hge)]
  · intro hlt
    rw [find_followers, if_pos hlt]
    cases directed with
    | false =>
      refine ⟨_, rfl, ?_⟩
      intro v
      rw [List.mem_filter, List.mem_range, rowOf_length hsq hlt]
      simp
    | true =>
      refine ⟨_, rfl, ?_⟩
      intro v
      rw [List.mem_filter, List.mem_range]
      simp

/-- C7 (witness): concrete evaluation of the claim theorem at an in-range
and the characterization it yields. -/
theorem find_followers_range_and_sets_witness :
    ∃ l, find_followers [[0, 1], [1, 0]] 1 true = .ok l ∧
      ∀ v, v ∈ l ↔ v < 2 ∧
        (if true then getEntry [[0, 1], [1, 0]] v 1
         else getEntry [[0, 1], [1, 0]] 1 v) = 1 :=
  (find_followers_range_and_sets [[0, 1], [1, 0]] 1 true (by decide)).2
    (by decide)

/-- C5 (claim theorem, failing-input evaluation): a one-field row whose
field parses as an integer raises an `IndexError` that the row loop's
`except ValueError` does not catch; `APP3_final`'s outer handler then
returns `([], [])`, discarding the valid rows' nodes and edges, while the
same input without the short row keeps them. -/
theorem read_csv_graph_short_row_discards :
    readRows [["1", "2"], ["3"]] true = .error .indexError ∧
    read_csv_graph [["1", "2"], ["3"]] true = (∅, []) ∧
    read_csv_graph [["1", "2"]] true = ({1, 2}, [(1, 2)]) := by
  decide

/-- C4 (counterexample): with a 2-node matrix, `start = goal = 5` is outside
`[0, size)` yet `bfs_shortest_path` returns `[5]` instead of failing with
`IndexOutOfRangeError`. -/
theorem bfs_out_of_range_counterexample :
    bfs_shortest_path [[0, 0], [0, 0]] 5 5 = .ok (some [5]) ∧
    bfs_shortest_path [[0, 0], [0, 0]] 5 5 ≠ .error .indexOutOfRange := by
  decide

/-- C6 (counterexample): the edge list `(0,1), (1,0)` parsed in directed
mode builds a symmetric matrix, so symmetry does not imply that the input
was parsed in undirected mode. -/
theorem build_symmetric_directed_counterexample :
    read_csv_graph [["0", "1"], ["1", "0"]] true = ({0, 1}, [(0, 1), (1, 0)]) ∧
    create_adjacency_matrix {0, 1} [(0, 1), (1, 0)] = .ok [[0, 1], [1, 0]] ∧
    SymmMatrix [[0, 1], [1, 0]] := by
  decide

/-- C3 (counterexample): input with nodes `{0, 2}` only; the matrix has size
3 and `find_leaders` with `topN = 3` returns three ids including id 1,
which never appeared, so the result is not a subset of the appearing node
ids and its length exceeds `min(topN, nodeCount) = 2`. -/
theorem find_leaders_gap_counterexample :
    read_csv_graph [["0", "2"]] true = ({0, 2}, [(0, 2)]) ∧
    create_adjacency_matrix {0, 2} [(0, 2)] =
      .ok [[0, 0, 1], [0, 0, 0], [0, 0, 0]] ∧
    (1 : Nat) ∈ (find_leaders [[0, 0, 1], [0, 0, 0], [0, 0, 0]] true 3).1 ∧
    (1 : Int) ∉ ({0, 2} : Finset Int) ∧
    (find_leaders [[0, 0, 1], [0, 0, 0], [0, 0, 0]] true 3).1.length = 3 ∧
    ({0, 2} : Finset Int).card = 2 := by
  decide

/-! ## Permutation facts about the argsort model -/

lemma insertDesc_perm (key : Nat → Nat) (i : Nat) :
    ∀ l : List Nat, (insertDesc key i l).Perm (i :: l) := by
  intro l
  induction l with
  | nil => exact List.Perm.refl _
  | cons j rest ih =>
    rw [insertDesc]
    split
    · exact List.Perm.refl _
    · exact (List.Perm.cons j ih).trans (List.Perm.swap i j rest)

lemma insertionSortDesc_perm (key : Nat → Nat) :
    ∀ l : List Nat, (insertionSortDesc key l).Perm l := by
  intro l
  induction l with
  | nil => exact List.Perm.refl _
  | cons i rest ih =>
    exact (insertDesc_perm key i _).trans (List.Perm.cons i ih)

lemma argsortDesc_perm (xs : List Nat) :
    (argsortDesc xs).Perm (List.range xs.length) :=
  insertionSortDesc_perm _ _

lemma argsortDesc_length (xs : List Nat) :
    (argsortDesc xs).length = xs.length := by
  rw [(argsortDesc_perm xs).length_eq, List.length_range]

lemma argsortDesc_mem_lt {xs : List Nat} {i : Nat} (h : i ∈ argsortDesc xs) :
    i < xs.length :=
  List.mem_range.mp ((argsortDesc_perm xs).mem_iff.mp h)

lemma numCols_eq {M : List (List Nat)} (hsq : Square M) :
    numCols M = M.length := by
  cases M with
  | nil => rfl
  | cons r rest => exact hsq r (List.mem_cons_self r rest)

lemma colSums_length (M : List (List Nat)) : (colSums M).length = numCols M := by
  simp [colSums]

lemma rowSums_length (M : List (List Nat)) : (rowSums M).length = M.length := by
  simp [rowSums]

/-- C3 (amended claim theorem): a ranking's node ids are always matrix
indices, i.e. a subset of `[0, matrixSize)` where the matrix size is
`max(node id) + 1`, and its length is `min(topN, matrixSize)` — which can
exceed the number of node ids that actually appeared in the input. -/
theorem rankings_subset_indices_and_length (M : List (List Nat))
    (directed : Bool) (tn : Nat) (hsq : Square M) :
    ((find_leaders M directed tn).1.length = min tn M.length ∧
      ∀ i ∈ (find_leaders M directed tn).1, i < M.length) ∧
    ((find_best_followers M tn).1.length = min tn M.length ∧
      ∀ i ∈ (find_best_followers M tn).1, i < M.length) := by
  have hlen : ∀ b : Bool,
      (if b then colSums M else rowSums M).length = M.length := by
    intro b
    cases b
    · simp [rowSums_length]
    · simp [colSums_length, numCols_eq hsq]
  constructor
  · constructor
    · rw [find_leaders]
      simp only [List.length_take, argsortDesc_length, hlen directed]
    · intro i hi
      rw [find_leaders] at hi
      have := argsortDesc_mem_lt (List.mem_of_mem_take hi)
      rwa [hlen directed] at this
  · constructor
    · rw [find_best_followers]
      simp only [List.length_take, argsortDesc_length, rowSums_length]
    · intro i hi
      rw [find_best_followers] at hi
      have := argsortDesc_mem_lt (List.mem_of_mem_take hi)
      rwa [rowSums_length] at this

/-- C3 (witness): the amended claim theorem evaluated on a concrete
3-by-3 matrix with `topN = 5`. -/
theorem rankings_subset_indices_and_length_witness :
    ((find_leaders [[0, 0, 1], [0, 0, 0], [0, 0, 0]] true 5).1.length =
        min 5 3 ∧
      ∀ i ∈ (find_leaders [[0, 0, 1], [0, 0, 0], [0, 0, 0]] true 5).1,
        i < 3) ∧
    ((find_best_followers [[0, 0, 1], [0, 0, 0], [0, 0, 0]] 5).1.length =
        min 5 3 ∧
      ∀ i ∈ (find_best_followers [[0, 0, 1], [0, 0, 0], [0, 0, 0]] 5).1,
        i < 3) :=
  rankings_subset_indices_and_length [[0, 0, 1], [0, 0, 0], [0, 0, 0]] true 5
    (by decide)

/-! ## Parser invariants -/

lemma foldlM_parseRow_inv {d : Bool} {P : ParseAcc → Prop}
    (hstep : ∀ acc row acc', parseRow d acc row = .ok acc' → P acc → P acc') :
    ∀ (rows : List (List String)) (acc acc' : ParseAcc),
      rows.foldlM (parseRow d) acc = .ok acc' → P acc → P acc' := by
  intro rows
  induction rows with
  | nil =>
    intro acc acc' h hP
    injection h with h
    rwa [← h]
  | cons row rest ih =>
    intro acc acc' h hP
    rw [List.foldlM_cons] at h
    cases hrow : parseRow d acc row with
    | error e =>
      rw [hrow] at h
      exact Except.noConfusion h
    | ok acc1 =>
      rw [hrow] at h
      exact ih acc1 acc' h (hstep acc row acc1 hrow hP)

lemma parseRow_cases {d : Bool} {acc acc' : ParseAcc} {row : List String}
    (h : parseRow d acc row = .ok acc') :
    acc' = acc ∨ ∃ u v : Int, acc' =
      (insert u (insert v acc.1),
       acc.2 ++ (u, v) :: (if d then [] else [(v, u)])) := by
  rw [parseRow.eq_def] at h
  rcases row with _ | ⟨f0, rest⟩
  · left
    injection h with h
    exact h.symm
  · simp only at h
    split at h
    · left
      injection h with h
      exact h.symm
    · rcases hp0 : pyInt? f0 with _ | u <;> rw [hp0] at h
      · left
        injection h with h
        exact h.symm
      · rcases rest with _ | ⟨f1, rest'⟩
        · exact Except.noConfusion h
        · simp only at h
          rcases hp1 : pyInt? f1 with _ | v <;> rw [hp1] at h
          · left
            injection h with h
            exact h.symm
          · right
            refine ⟨u, v, ?_⟩
            injection h with h
            exact h.symm

/-- Endpoints of parsed edges are members of the parsed node set. -/
lemma readRows_endpoints {rows : List (List String)} {d : Bool}
    {acc : ParseAcc} (h : readRows rows d = .ok acc) :
    ∀ e ∈ acc.2, e.1 ∈ acc.1 ∧ e.2 ∈ acc.1 := by
  refine foldlM_parseRow_inv
    (P := fun a => ∀ e ∈ a.2, e.1 ∈ a.1 ∧ e.2 ∈ a.1) ?_ rows (∅, []) acc h
    (fun e he => absurd he (List.not_mem_nil e))
  intro a row a' hrow hP
  rcases parseRow_cases hrow with rfl | ⟨u, v, rfl⟩
  · exact hP
  · intro e he
    simp only [List.mem_append, List.mem_cons] at he
    rcases he with he | he | he
    · have := hP e he
      exact ⟨Finset.mem_insert_of_mem (Finset.mem_insert_of_mem this.1),
        Finset.mem_insert_of_mem (Finset.mem_insert_of_mem this.2)⟩
    · subst he
      exact ⟨Finset.mem_insert_self u _,
        Finset.mem_insert_of_mem (Finset.mem_insert_self v _)⟩
    · rcases d with _ | _
      · simp only [if_neg Bool.false_ne_true] at he
        simp only [List.mem_singleton] at he
        subst he
        exact ⟨Finset.mem_insert_of_mem (Finset.mem_insert_self v _),
          Finset.mem_insert_self u _⟩
      · simp at he

/-- In undirected mode the parsed edge list is closed under reversal. -/
lemma readRows_symm {rows : List (List String)} {acc : ParseAcc}
    (h : readRows rows false = .ok acc) :
    ∀ a b : Int, (a, b) ∈ acc.2 ↔ (b, a) ∈ acc.2 := by
  refine foldlM_parseRow_inv
    (P := fun x => ∀ a b : Int, (a, b) ∈ x.2 ↔ (b, a) ∈ x.2) ?_ rows
    (∅, []) acc h
    (fun a b => iff_of_false (List.not_mem_nil _) (List.not_mem_nil _))
  intro x row x' hrow hP
  rcases parseRow_cases hrow with rfl | ⟨u, v, rfl⟩
  · exact hP
  · intro a b
    simp only [if_neg Bool.false_ne_true, List.mem_append, List.mem_cons,
      List.mem_singleton, Prod.mk.injEq]
    constructor
    · rintro (hab | ⟨rfl, rfl⟩ | ⟨rfl, rfl⟩ | hnil)
      · exact Or.inl ((hP a b).mp hab)
      · exact Or.inr (Or.inr (Or.inl ⟨rfl, rfl⟩))
      · exact Or.inr (Or.inl ⟨rfl, rfl⟩)
      · exact absurd hnil (List.not_mem_nil _)
    · rintro (hba | ⟨rfl, rfl⟩ | ⟨rfl, rfl⟩ | hnil)
      · exact Or.inl ((hP a b).mpr hba)
      · exact Or.inr (Or.inr (Or.inl ⟨rfl, rfl⟩))
      · exact Or.inr (Or.inl ⟨rfl, rfl⟩)
      · exact absurd hnil (List.not_mem_nil _)

lemma read_csv_graph_ok {rows : List (List String)} {d : Bool}
    (hne : (read_csv_graph rows d).1.Nonempty) :
    readRows rows d = .ok (read_csv_graph rows d) := by
  rw [read_csv_graph]
  cases h : readRows rows d with
  | error e =>
    rw [read_csv_graph, h] at hne
    exact absurd hne (by simp [Finset.not_nonempty_empty])
  | ok acc => rfl

/-! ## Matrix build characterization -/

lemma zeros_length (n : Nat) : (zeros n).length = n := by
  simp [zeros]

lemma zeros_square (n : Nat) : Square (zeros n) := by
  intro row hrow
  rw [List.eq_of_mem_replicate hrow, List.length_replicate, zeros_length]

lemma getEntry_zeros (n i j : Nat) : getEntry (zeros n) i j = 0 := by
  have h1 : (zeros n).getD i [] = [] ∨
      (zeros n).getD i [] = List.replicate n 0 := by
    rw [zeros, List.getD_eq_getElem?_getD, List.getElem?_replicate]
    split
    · right
      rfl
    · left
      rfl
  rcases h1 with h | h <;> rw [getEntry, h]
  · rfl
  · rw [List.getD_eq_getElem?_getD, List.getElem?_replicate]
    split <;> rfl

lemma getD_mem_of_lt {M : List (List Nat)} {i : Nat} (hi : i < M.length) :
    M.getD i [] ∈ M := by
  rw [List.getD_eq_getElem?_getD, List.getElem?_eq_getElem hi]
  exact List.getElem_mem hi

lemma setEntry_length (M : List (List Nat)) (i j : Nat) :
    (setEntry M i j).length = M.length :=
  List.length_set ..

lemma setEntry_square {M : List (List Nat)} (hsq : Square M) (i j : Nat) :
    Square (setEntry M i j) := by
  by_cases hi : i < M.length
  · intro row hrow
    rw [setEntry_length]
    rcases List.mem_or_eq_of_mem_set hrow with hmem | rfl
    · exact hsq row hmem
    · rw [List.length_set]
      exact hsq _ (getD_mem_of_lt hi)
  · rw [setEntry, List.set_eq_of_length_le (le_of_not_lt hi)]
    exact hsq

lemma getEntry_setEntry {M : List (List Nat)} (hsq : Square M) {i j : Nat}
    (hi : i < M.length) (hj : j < M.length) (a b : Nat) :
    getEntry (setEntry M i j) a b =
      if a = i ∧ b = j then 1 else getEntry M a b := by
  have hrowlen : (M.getD i []).length = M.length :=
    hsq _ (getD_mem_of_lt hi)
  rw [getEntry, setEntry, getEntry]
  by_cases hai : a = i
  · subst hai
    have houter : (M.set a ((M.getD a []).set j 1)).getD a [] =
        (M.getD a []).set j 1 := by
      rw [List.getD_eq_getElem?_getD, List.getElem?_set_eq_of_lt _ hi,
        Option.getD_some]
    rw [houter]
    by_cases hbj : b = j
    · subst hbj
      rw [List.getD_eq_getElem?_getD,
        List.getElem?_set_eq_of_lt _ (by rw [hrowlen]; exact hj),
        Option.getD_some]
      simp
    · have hinner : ((M.getD a []).set j 1).getD b 0 =
          (M.getD a []).getD b 0 := by
        rw [List.getD_eq_getElem?_getD,
          List.getElem?_set_ne (fun h => hbj h.symm),
          ← List.getD_eq_getElem?_getD]
      rw [hinner]
      simp [hbj]
  · have houter : (M.set i ((M.getD i []).set j 1)).getD a [] =
        M.getD a [] := by
      rw [List.getD_eq_getElem?_getD,
        List.getElem?_set_ne (fun h => hai h.symm),
        ← List.getD_eq_getElem?_getD]
    rw [houter]
    simp [hai]

lemma foldl_setEntry_square {E : List (Nat × Nat)} :
    ∀ {M0 : List (List Nat)}, Square M0 →
      Square (E.foldl (fun m e => setEntry m e.1 e.2) M0) ∧
      (E.foldl (fun m e => setEntry m e.1 e.2) M0).length = M0.length := by
  induction E with
  | nil => intro M0 h; exact ⟨h, rfl⟩
  | cons e es ih =>
    intro M0 h
    rw [List.foldl_cons]
    obtain ⟨h1, h2⟩ := ih (setEntry_square h e.1 e.2)
    exact ⟨h1, h2.trans (setEntry_length ..)⟩

lemma getEntry_foldl_setEntry :
    ∀ (E : List (Nat × Nat)) (M0 : List (List Nat)), Square M0 →
      (∀ e ∈ E, e.1 < M0.length ∧ e.2 < M0.length) →
      ∀ i j, i < M0.length → j < M0.length →
        getEntry (E.foldl (fun m e => setEntry m e.1 e.2) M0) i j =
          if (i, j) ∈ E then 1 else getEntry M0 i j := by
  intro E
  induction E with
  | nil => intro M0 _ _ i j _ _; simp
  | cons e es ih =>
    intro M0 hsq hE i j hi hj
    rw [List.foldl_cons]
    have he := hE e (List.mem_cons_self e es)
    have hlen : (setEntry M0 e.1 e.2).length = M0.length := setEntry_length ..
    have hrec := ih (setEntry M0 e.1 e.2) (setEntry_square hsq e.1 e.2)
      (fun x hx => by rw [hlen]; exact hE x (List.mem_cons_of_mem _ hx))
      i j (by rw [hlen]; exact hi) (by rw [hlen]; exact hj)
    rw [hrec, getEntry_setEntry hsq he.1 he.2 i j]
    by_cases hmem : (i, j) ∈ es
    · simp [hmem, List.mem_cons]
    · by_cases hij : i = e.1 ∧ j = e.2
      · have hcons : (i, j) ∈ e :: es := by
          rw [List.mem_cons]
          exact Or.inl (Prod.ext_iff.mpr hij)
        simp [hmem, hij, hcons]
      · have hcons : (i, j) ∉ e :: es := by
          rw [List.mem_cons]
          rintro (h1 | h2)
          · exact hij (Prod.ext_iff.mp h1)
          · exact hmem h2
        simp [hmem, hij, hcons]

lemma foldl_toNat_eq (edges : List (Int × Int)) (acc : List (List Nat)) :
    edges.foldl (fun m e => setEntry m e.1.toNat e.2.toNat) acc =
      (edges.map (fun e : Int × Int => (e.1.toNat, e.2.toNat))).foldl
        (fun m e => setEntry m e.1 e.2) acc := by
  rw [List.foldl_map]

/-- C6 (amended claim theorem): on parser output with at least one node and
non-negative ids, the build succeeds with a square matrix whose size is
`max(node id) + 1`; in undirected mode the matrix is symmetric (but, per
the counterexample, a directed input can also produce a symmetric matrix,
so symmetry is implied by, not equivalent to, undirected parsing). -/
theorem build_size_square_and_symmetry (rows : List (List String))
    (directed : Bool)
    (hnn : ∀ x ∈ (read_csv_graph rows directed).1, (0 : Int) ≤ x)
    (hne : (read_csv_graph rows directed).1.Nonempty) :
    ∃ M, create_adjacency_matrix (read_csv_graph rows directed).1
        (read_csv_graph rows directed).2 = .ok M ∧
      (M.length : Int) = (read_csv_graph rows directed).1.max' hne + 1 ∧
      Square M ∧
      (directed = false → SymmMatrix M) := by
  have hok := read_csv_graph_ok hne
  have hend := readRows_endpoints hok
  have hm0 : (0 : Int) ≤ (read_csv_graph rows directed).1.max' hne :=
    hnn _ (Finset.max'_mem _ hne)
  have h1 : (0 : Int) ≤ (read_csv_graph rows directed).1.max' hne + 1 := by
    linarith
  have hsize :
      ((((read_csv_graph rows directed).1.max' hne + 1).toNat : Nat) : Int) =
        (read_csv_graph rows directed).1.max' hne + 1 :=
    Int.toNat_of_nonneg h1
  have hbounds : ∀ e ∈ (read_csv_graph rows directed).2,
      (0 : Int) ≤ e.1 ∧
        e.1 < ((((read_csv_graph rows directed).1.max' hne + 1).toNat :
          Nat) : Int) ∧
        (0 : Int) ≤ e.2 ∧
        e.2 < ((((read_csv_graph rows directed).1.max' hne + 1).toNat :
          Nat) : Int) := by
    intro e he
    obtain ⟨h1', h2'⟩ := hend e he
    have hu := Finset.le_max' _ _ h1'
    have hv := Finset.le_max' _ _ h2'
    rw [hsize]
    exact ⟨hnn _ h1', by linarith, hnn _ h2', by linarith⟩
  rw [create_adjacency_matrix, dif_pos hne, if_pos h1,
    foldlM_applyEdge_ok _ hbounds, foldl_toNat_eq]
  have hENbounds : ∀ e ∈ (read_csv_graph rows directed).2.map
      (fun e : Int × Int => (e.1.toNat, e.2.toNat)),
      e.1 < (zeros (((read_csv_graph rows directed).1.max' hne +
        1).toNat)).length ∧
      e.2 < (zeros (((read_csv_graph rows directed).1.max' hne +
        1).toNat)).length := by
    intro e he
    rw [List.mem_map] at he
    obtain ⟨x, hx, rfl⟩ := he
    obtain ⟨a, b, c, d⟩ := hbounds x hx
    rw [zeros_length]
    constructor
    · omega
    · omega
  obtain ⟨hMsq, hMlen⟩ := foldl_setEntry_square (zeros_square _)
  refine ⟨_, rfl, ?_, hMsq, ?_⟩
  · rw [hMlen, zeros_length, hsize]
  · intro hdir
    subst hdir
    have hsymm := readRows_symm hok
    intro i hi j hj
    rw [hMlen, zeros_length] at hi hj
    rw [getEntry_foldl_setEntry _ _ (zeros_square _) hENbounds i j
        (by rw [zeros_length]; exact hi) (by rw [zeros_length]; exact hj),
      getEntry_foldl_setEntry _ _ (zeros_square _) hENbounds j i
        (by rw [zeros_length]; exact hj) (by rw [zeros_length]; exact hi),
      getEntry_zeros, getEntry_zeros]
    have hiff : (i, j) ∈ (read_csv_graph rows false).2.map
        (fun e : Int × Int => (e.1.toNat, e.2.toNat)) ↔
        (j, i) ∈ (read_csv_graph rows false).2.map
        (fun e : Int × Int => (e.1.toNat, e.2.toNat)) := by
      constructor <;> intro hm
      · rw [List.mem_map] at hm ⊢
        obtain ⟨⟨x1, x2⟩, hx, hxe⟩ := hm
        refine ⟨(x2, x1), (hsymm x1 x2).mp hx, ?_⟩
        simp only [Prod.mk.injEq] at hxe ⊢
        exact ⟨hxe.2, hxe.1⟩
      · rw [List.mem_map] at hm ⊢
        obtain ⟨⟨x1, x2⟩, hx, hxe⟩ := hm
        refine ⟨(x2, x1), (hsymm x1 x2).mp hx, ?_⟩
        simp only [Prod.mk.injEq] at hxe ⊢
        exact ⟨hxe.2, hxe.1⟩
    by_cases hm : (i, j) ∈ (read_csv_graph rows false).2.map
        (fun e : Int × Int => (e.1.toNat, e.2.toNat))
    · rw [if_pos hm, if_pos (hiff.mp hm)]
    · rw [if_neg hm, if_neg (fun hc => hm (hiff.mpr hc))]

/-- C6 (witness): the amended claim theorem evaluated on a concrete
undirected input. -/
theorem build_size_square_and_symmetry_witness :
    ∃ M, create_adjacency_matrix (read_csv_graph [["0", "1"]] false).1
        (read_csv_graph [["0", "1"]] false).2 = .ok M ∧
      (M.length : Int) =
        (read_csv_graph [["0", "1"]] false).1.max' (by decide) + 1 ∧
      Square M ∧
      (false = false → SymmMatrix M) :=
  build_size_square_and_symmetry [["0", "1"]] false (by decide) (by decide)

/-! ## Export round-trip lemmas -/

lemma splitOnChar_no_sep {c : Char} :
    ∀ {a : List Char}, c ∉ a → splitOnChar c a = [a] := by
  intro a
  induction a with
  | nil => intro _; rfl
  | cons x xs ih =>
    intro h
    have hx : x ≠ c := fun hc => h (hc ▸ List.mem_cons_self x xs)
    have hxs : c ∉ xs := fun hc => h (List.mem_cons_of_mem _ hc)
    simp [splitOnChar, hx, ih hxs]

lemma splitOnChar_append {c : Char} {b : List Char} :
    ∀ {a : List Char}, c ∉ a →
      splitOnChar c (a ++ c :: b) = a :: splitOnChar c b := by
  intro a
  induction a with
  | nil => intro _; simp [splitOnChar]
  | cons x xs ih =>
    intro h
    have hx : x ≠ c := fun hc => h (hc ▸ List.mem_cons_self x xs)
    have hxs : c ∉ xs := fun hc => h (List.mem_cons_of_mem _ hc)
    simp [splitOnChar, hx, ih hxs]

lemma mem_joinSpace {x : Char} :
    ∀ {ts : List (List Char)}, x ∈ joinSpace ts →
      (∃ t ∈ ts, x ∈ t) ∨ x = ' ' := by
  intro ts
  induction ts with
  | nil => intro h; simp [joinSpace] at h
  | cons t ts' ih =>
    cases ts' with
    | nil =>
      intro h
      exact Or.inl ⟨t, List.mem_cons_self t [], h⟩
    | cons t2 ts'' =>
      intro h
      have hj : joinSpace (t :: t2 :: ts'') = t ++ ' ' :: joinSpace (t2 :: ts'') :=
        rfl
      rw [hj] at h
      rcases List.mem_append.mp h with h1 | h2
      · exact Or.inl ⟨t, List.mem_cons_self t _, h1⟩
      · rcases List.mem_cons.mp h2 with rfl | h3
        · exact Or.inr rfl
        · rcases ih h3 with ⟨t', ht', hx⟩ | hsp
          · exact Or.inl ⟨t', List.mem_cons_of_mem _ ht', hx⟩
          · exact Or.inr hsp

lemma digitsOf_ne_nil (n : Nat) : digitsOf n ≠ [] := by
  rw [digitsOf, digitsAux]
  split
  · exact List.cons_ne_nil _ _
  · exact fun h => absurd (List.append_eq_nil.mp h).2 (List.cons_ne_nil _ _)

lemma newline_not_mem_serializeRow {r : List Nat}
    (h01 : ∀ x ∈ r, x = 0 ∨ x = 1) : '\n' ∉ serializeRow r := by
  intro hmem
  rw [serializeRow] at hmem
  rcases mem_joinSpace hmem with ⟨t, ht, hx⟩ | hsp
  · rw [List.mem_map] at ht
    obtain ⟨e, he, rfl⟩ := ht
    rcases h01 e he with rfl | rfl <;> revert hx <;> decide
  · exact absurd hsp (by decide)

lemma serializeRow_ne_nil {r : List Nat} (hne : r ≠ []) :
    serializeRow r ≠ [] := by
  rcases r with _ | ⟨e, r'⟩
  · exact absurd rfl hne
  · rcases r' with _ | ⟨e2, r''⟩
    · exact digitsOf_ne_nil e
    · have hj : serializeRow (e :: e2 :: r'') =
          digitsOf e ++ ' ' :: joinSpace ((e2 :: r'').map digitsOf) := rfl
      rw [hj]
      exact fun h => absurd (List.append_eq_nil.mp h).2 (List.cons_ne_nil _ _)

lemma parse_serializeRow :
    ∀ {r : List Nat}, (∀ x ∈ r, x = 0 ∨ x = 1) → r ≠ [] →
      (splitOnChar ' ' (serializeRow r)).map parseNatTok = r := by
  intro r
  induction r with
  | nil => intro _ h; exact absurd rfl h
  | cons e r' ih =>
    intro h01 _
    have he := h01 e (List.mem_cons_self e r')
    have hnospace : ' ' ∉ digitsOf e := by
      rcases he with rfl | rfl <;> decide
    have hparse : parseNatTok (digitsOf e) = e := by
      rcases he with rfl | rfl <;> rfl
    cases r' with
    | nil =>
      have hser : serializeRow [e] = digitsOf e := rfl
      rw [hser, splitOnChar_no_sep hnospace, List.map_singleton, hparse]
    | cons e2 r'' =>
      have hser : serializeRow (e :: e2 :: r'') =
          digitsOf e ++ ' ' :: serializeRow (e2 :: r'') := rfl
      rw [hser, splitOnChar_append hnospace, List.map_cons, hparse,
        ih (fun x hx => h01 x (List.mem_cons_of_mem _ hx))
          (List.cons_ne_nil _ _)]

lemma splitOnChar_save :
    ∀ {M : List (List Nat)}, (∀ r ∈ M, '\n' ∉ serializeRow r) →
      splitOnChar '\n' (save_matrix_plain M) = (M.map serializeRow) ++ [[]] := by
  intro M
  induction M with
  | nil => intro _; rfl
  | cons r M' ih =>
    intro h
    have hsave : save_matrix_plain (r :: M') =
        serializeRow r ++ '\n' :: save_matrix_plain M' := by
      rw [save_matrix_plain, save_matrix_plain, List.map_cons,
        List.flatten_cons, List.append_assoc, List.singleton_append]
    rw [hsave, splitOnChar_append (h r (List.mem_cons_self r M')),
      ih (fun r' h' => h r' (List.mem_cons_of_mem _ h')), List.map_cons]
    rfl

/-- C9 (claim theorem): serializing a square 0/1 matrix in the plain format
(space-separated `%d` entries, one row per line) and parsing the text back
reproduces the matrix exactly. -/
theorem save_matrix_plain_roundtrip (M : List (List Nat)) (hsq : Square M)
    (h01 : ∀ r ∈ M, ∀ x ∈ r, x = 0 ∨ x = 1) :
    parse_matrix_plain (save_matrix_plain M) = M := by
  have hrne : ∀ r ∈ M, r ≠ [] := by
    intro r hr hnil
    have hlen := hsq r hr
    rw [hnil] at hlen
    have hM : M ≠ [] := List.ne_nil_of_mem hr
    have := List.length_pos.mpr hM
    simp only [List.length_nil] at hlen
    omega
  rw [parse_matrix_plain,
    splitOnChar_save (fun r hr => newline_not_mem_serializeRow (h01 r hr)),
    List.filter_append]
  have h2 : (M.map serializeRow).filter (fun l => l ≠ []) =
      M.map serializeRow := by
    rw [List.filter_eq_self]
    intro a ha
    rw [List.mem_map] at ha
    obtain ⟨r, hr, rfl⟩ := ha
    simpa using serializeRow_ne_nil (hrne r hr)
  have h3 : ([([] : List Char)]).filter (fun l => l ≠ []) = [] := rfl
  rw [h2, h3, List.append_nil, List.map_map]
  have h4 : M.map ((fun line => (splitOnChar ' ' line).map parseNatTok) ∘
      serializeRow) = M.map id :=
    List.map_congr_left (fun r hr => by
      simp only [Function.comp_apply, id]
      exact parse_serializeRow (h01 r hr) (hrne r hr))
  rw [h4, List.map_id]

/-- C9 (witness): the round trip evaluated on a concrete symmetric 0/1
matrix. -/
theorem save_matrix_plain_roundtrip_witness :
    parse_matrix_plain (save_matrix_plain [[0, 1], [1, 0]]) = [[0, 1], [1, 0]] :=
  save_matrix_plain_roundtrip [[0, 1], [1, 0]] (by decide) (by decide)

/-! ## Step lemmas for the BFS loop -/

lemma bfsLoop_nil (M : List (List Nat)) (goal : Nat) (visited : Finset Nat) :
    bfsLoop M goal [] visited = .ok none := by
  rw [bfsLoop.eq_def]

lemma bfsLoop_cons_visited (M : List (List Nat)) (goal : Nat) (path : List Nat)
    (rest : List (List Nat)) (visited : Finset Nat)
    (h : path.getLastD 0 ∈ visited) :
    bfsLoop M goal (path :: rest) visited = bfsLoop M goal rest visited := by
  rw [bfsLoop.eq_def]
  simp only [dif_pos h]

lemma bfsLoop_cons_found (M : List (List Nat)) (goal : Nat) (path : List Nat)
    (rest : List (List Nat)) (visited : Finset Nat)
    (h : path.getLastD 0 ∉ visited) (h2 : path.getLastD 0 < M.length)
    (found : List Nat)
    (hn : processNbrs path goal (nbrs M (path.getLastD 0)) = .inl found) :
    bfsLoop M goal (path :: rest) visited = .ok (some found) := by
  rw [bfsLoop.eq_def]
  simp only [dif_neg h, dif_pos h2, hn]

lemma bfsLoop_cons_expand (M : List (List Nat)) (goal : Nat) (path : List Nat)
    (rest : List (List Nat)) (visited : Finset Nat)
    (h : path.getLastD 0 ∉ visited) (h2 : path.getLastD 0 < M.length)
    (exts : List (List Nat))
    (hn : processNbrs path goal (nbrs M (path.getLastD 0)) = .inr exts) :
    bfsLoop M goal (path :: rest) visited =
      bfsLoop M goal (rest ++ exts) (insert (path.getLastD 0) visited) := by
  rw [bfsLoop.eq_def]
  simp only [dif_neg h, dif_pos h2, hn]

lemma bfsLoop_cons_oor (M : List (List Nat)) (goal : Nat) (path : List Nat)
    (rest : List (List Nat)) (visited : Finset Nat)
    (h : path.getLastD 0 ∉ visited) (h2 : ¬ path.getLastD 0 < M.length) :
    bfsLoop M goal (path :: rest) visited = .error .indexOutOfRange := by
  rw [bfsLoop.eq_def]
  simp only [dif_neg h, dif_neg h2]

/-! ## Small helpers for the BFS invariant -/

lemma ne_nil_of_head? {α : Type} {p : List α} {s : α}
    (h : p.head? = some s) : p ≠ [] := by
  intro h0
  rw [h0] at h
  exact Option.noConfusion h

lemma getLastD_mem {p : List Nat} (h : p ≠ []) : p.getLastD 0 ∈ p := by
  rw [List.getLastD_eq_getLast?]
  cases hlast : p.getLast? with
  | none =>
    rw [← Option.not_isSome_iff_eq_none] at hlast
    exact absurd (List.getLast?_isSome.mpr h) hlast
  | some y =>
    exact getLast?_mem hlast

lemma getLastD_concat (p : List Nat) (v : Nat) :
    (p ++ [v]).getLastD 0 = v := by
  rw [List.getLastD_eq_getLast?, List.getLast?_concat]
  rfl

lemma pairwise_of_total {α : Type} {R : α → α → Prop} (h : ∀ a b, R a b) :
    ∀ l : List α, List.Pairwise R l := by
  intro l
  induction l with
  | nil => exact List.Pairwise.nil
  | cons a l' ih => exact List.Pairwise.cons (fun b _ => h a b) ih

lemma walk_to_endpoint {M : List (List Nat)} {s : Nat} {p : List Nat}
    (hh : p.head? = some s) (hc : List.Chain' (edgeP M) p) :
    Walk M s (p.getLastD 0) p := by
  refine ⟨hh, ?_, hc⟩
  rw [List.getLastD_eq_getLast?]
  cases hlast : p.getLast? with
  | none =>
    rw [← Option.not_isSome_iff_eq_none] at hlast
    exact absurd (List.getLast?_isSome.mpr (ne_nil_of_head? hh)) hlast
  | some y => rfl

/-- Invariant-based postcondition of the BFS loop: from a queue of walks
from `s`, none containing `goal`, sorted by length within a window of one,
with all nodes in range, and such that every walk from `s` to `goal` has a
pending witness in the queue, the loop returns a minimal walk to `goal`
exactly when one exists and `none` otherwise. -/
theorem bfsLoop_post (M : List (List Nat)) (s goal : Nat) (hsq : Square M) :
    ∀ (queue : List (List Nat)) (visited : Finset Nat),
      (∀ p ∈ queue, p.head? = some s ∧ List.Chain' (edgeP M) p) →
      (∀ p ∈ queue, goal ∉ p) →
      queue.Pairwise (fun a b => a.length ≤ b.length) →
      (∀ p ∈ queue, ∀ q ∈ queue, p.length ≤ q.length + 1) →
      (∀ p ∈ queue, ∀ x ∈ p, x < M.length) →
      (∀ W, Walk M s goal W → ∃ p ∈ queue, ∃ V,
        Walk M (p.getLastD 0) goal V ∧ (∀ x ∈ V, x ∉ visited) ∧
        p.length + V.length ≤ W.length + 1) →
      ((∃ p, bfsLoop M goal queue visited = .ok (some p) ∧ Walk M s goal p ∧
        ∀ W, Walk M s goal W → p.length ≤ W.length) ∨
      (bfsLoop M goal queue visited = .ok none ∧ ∀ W, ¬ Walk M s goal W)) := by
  intro queue visited
  induction queue, visited using bfsLoop.induct M goal with
  | case1 visited =>
    intro _ _ _ _ _ hW5
    right
    refine ⟨bfsLoop_nil M goal visited, ?_⟩
    intro W hW
    obtain ⟨p, hp, -⟩ := hW5 W hW
    exact absurd hp (List.not_mem_nil p)
  | case2 path rest visited nd hv ih =>
    intro hW1 hW2 hW3a hW3b hW4 hW5
    rw [bfsLoop_cons_visited M goal path rest visited hv]
    apply ih
    · exact fun p hp => hW1 p (List.mem_cons_of_mem _ hp)
    · exact fun p hp => hW2 p (List.mem_cons_of_mem _ hp)
    · exact hW3a.of_cons
    · exact fun p hp q hq =>
        hW3b p (List.mem_cons_of_mem _ hp) q (List.mem_cons_of_mem _ hq)
    · exact fun p hp => hW4 p (List.mem_cons_of_mem _ hp)
    · intro W hW
      obtain ⟨p, hp, V, hV, havoid, hlen⟩ := hW5 W hW
      have hpV : p.getLastD 0 ∈ V := head?_mem hV.1
      have hpne : p ≠ path := by
        intro heq
        subst heq
        exact havoid _ hpV hv
      have hp' : p ∈ rest := by
        rcases List.mem_cons.mp hp with heq | h
        · exact absurd heq hpne
        · exact h
      exact ⟨p, hp', V, hV, havoid, hlen⟩
  | case3 path rest visited nd hv hn found hfound =>
    intro hW1 hW2 hW3a hW3b hW4 hW5
    left
    have hg : goal ∈ nbrs M (path.getLastD 0) := by
      by_contra hg
      rw [processNbrs_not_mem hg] at hfound
      exact Sum.noConfusion hfound
    have hfound' := hfound
    rw [processNbrs_mem hg] at hfound'
    have hfeq : found = path ++ [goal] := by
      injection hfound' with h
      exact h.symm
    subst hfeq
    have hpath := hW1 path (List.mem_cons_self _ _)
    have hwalkp : Walk M s (path.getLastD 0) path :=
      walk_to_endpoint hpath.1 hpath.2
    have hwalkfound : Walk M s goal (path ++ [goal]) :=
      walk_append_edge hwalkp hg
    refine ⟨path ++ [goal],
      bfsLoop_cons_found M goal path rest visited hv hn _ hfound,
      hwalkfound, ?_⟩
    intro W hW
    obtain ⟨p, hp, V, hV, havoid, hlen⟩ := hW5 W hW
    have hpne : p ≠ [] := ne_nil_of_head? (hW1 p hp).1
    have hlastmem : p.getLastD 0 ∈ p := getLastD_mem hpne
    have hlastne : p.getLastD 0 ≠ goal := by
      intro heq
      exact hW2 p hp (heq ▸ hlastmem)
    have hV2 : 2 ≤ V.length := walk_length_ge_two hV hlastne
    have hple : path.length ≤ p.length := by
      rcases List.mem_cons.mp hp with heq | h
      · rw [heq]
      · exact (List.pairwise_cons.mp hW3a).1 p h
    have : (path ++ [goal]).length = path.length + 1 := by simp
    omega
  | case4 path rest visited nd hv hn exts hexts ih =>
    intro hW1 hW2 hW3a hW3b hW4 hW5
    have hgnot : goal ∉ nbrs M (path.getLastD 0) := by
      intro hg
      rw [processNbrs_mem hg] at hexts
      exact Sum.noConfusion hexts
    have hexts' := hexts
    rw [processNbrs_not_mem hgnot] at hexts'
    have hexts_eq : exts = (nbrs M (path.getLastD 0)).map
        (fun v => path ++ [v]) := by
      injection hexts' with h
      exact h.symm
    subst hexts_eq
    rw [bfsLoop_cons_expand M goal path rest visited hv hn _ hexts]
    have hpath := hW1 path (List.mem_cons_self _ _)
    have hpathne : path ≠ [] := ne_nil_of_head? hpath.1
    have hndmem : path.getLastD 0 ∈ path := getLastD_mem hpathne
    have hwalkp : Walk M s (path.getLastD 0) path :=
      walk_to_endpoint hpath.1 hpath.2
    have hextlen : ∀ q ∈ (nbrs M (path.getLastD 0)).map
        (fun v => path ++ [v]), q.length = path.length + 1 := by
      intro q hq
      rw [List.mem_map] at hq
      obtain ⟨v, -, rfl⟩ := hq
      simp
    apply ih
    · intro p hp
      rcases List.mem_append.mp hp with h | h
      · exact hW1 p (List.mem_cons_of_mem _ h)
      · rw [List.mem_map] at h
        obtain ⟨v, hv', rfl⟩ := h
        have hw := walk_append_edge hwalkp hv'
        exact ⟨hw.1, hw.2.2⟩
    · intro p hp
      rcases List.mem_append.mp hp with h | h
      · exact hW2 p (List.mem_cons_of_mem _ h)
      · rw [List.mem_map] at h
        obtain ⟨v, hv', rfl⟩ := h
        intro hmem
        rcases List.mem_append.mp hmem with h1 | h2
        · exact hW2 path (List.mem_cons_self _ _) h1
        · rw [List.mem_singleton] at h2
          exact hgnot (h2 ▸ hv')
    · rw [List.pairwise_append]
      refine ⟨hW3a.of_cons, ?_, ?_⟩
      · rw [List.pairwise_map]
        exact pairwise_of_total (fun a b => by simp) _
      · intro a ha b hb
        rw [hextlen b hb]
        exact hW3b a (List.mem_cons_of_mem _ ha) path (List.mem_cons_self _ _)
    · intro p hp q hq
      rcases List.mem_append.mp hp with h1 | h1 <;>
        rcases List.mem_append.mp hq with h2 | h2
      · exact hW3b p (List.mem_cons_of_mem _ h1) q (List.mem_cons_of_mem _ h2)
      · rw [hextlen q h2]
        have := hW3b p (List.mem_cons_of_mem _ h1) path
          (List.mem_cons_self _ _)
        omega
      · rw [hextlen p h1]
        have := (List.pairwise_cons.mp hW3a).1 q h2
        omega
      · rw [hextlen p h1, hextlen q h2]
        omega
    · intro p hp
      rcases List.mem_append.mp hp with h | h
      · exact hW4 p (List.mem_cons_of_mem _ h)
      · rw [List.mem_map] at h
        obtain ⟨v, hv', rfl⟩ := h
        intro x hx
        rcases List.mem_append.mp hx with h1 | h2
        · exact hW4 path (List.mem_cons_self _ _) x h1
        · rw [List.mem_singleton] at h2
          exact h2 ▸ edgeP_lt_right hsq hv'
    · intro W hW
      obtain ⟨p, hp, V, hV, havoid, hlen⟩ := hW5 W hW
      have hndgoal : path.getLastD 0 ≠ goal := by
        intro heq
        exact hW2 path (List.mem_cons_self _ _) (heq ▸ hndmem)
      by_cases hndV : path.getLastD 0 ∈ V
      · obtain ⟨A, B, hVeq, hndB⟩ := mem_split_last hndV
        subst hVeq
        have hsuffix : Walk M (path.getLastD 0) goal (path.getLastD 0 :: B) :=
          walk_suffix hV
        rcases B with _ | ⟨v, B'⟩
        · exfalso
          have := hsuffix.2.1
          simp only [List.getLast?_singleton, Option.some.injEq] at this
          exact hndgoal this
        · have hv' : edgeP M (path.getLastD 0) v :=
            (List.chain'_cons.mp hsuffix.2.2).1
          have hsuffix2 : Walk M v goal (v :: B') := by
            have : Walk M (path.getLastD 0) goal
                ([path.getLastD 0] ++ v :: B') := hsuffix
            exact walk_suffix this
          have hple : path.length ≤ p.length := by
            rcases List.mem_cons.mp hp with heq | h
            · rw [heq]
            · exact (List.pairwise_cons.mp hW3a).1 p h
          refine ⟨path ++ [v],
            List.mem_append_right _ (List.mem_map.mpr ⟨v, hv', rfl⟩),
            v :: B', ?_, ?_, ?_⟩
          · rw [getLastD_concat]
            exact hsuffix2
          · intro x hx hmem
            rcases Finset.mem_insert.mp hmem with heq | hxv
            · subst heq
              exact hndB hx
            · refine havoid x ?_ hxv
              exact List.mem_append_right _ (List.mem_cons_of_mem _ hx)
          · have hVlen : (A ++ path.getLastD 0 :: v :: B').length =
                A.length + B'.length + 2 := by
              simp
              omega
            have h1 : (path ++ [v]).length = path.length + 1 := by simp
            have h2 : (v :: B').length = B'.length + 1 := by simp
            rw [hVlen] at hlen
            omega
      · have hpne : p ≠ path := by
          intro heq
          subst heq
          exact hndV (head?_mem hV.1)
        have hp' : p ∈ rest := by
          rcases List.mem_cons.mp hp with heq | h
          · exact absurd heq hpne
          · exact h
        refine ⟨p, List.mem_append_left _ hp', V, hV, ?_, hlen⟩
        intro x hx hmem
        rcases Finset.mem_insert.mp hmem with heq | hxv
        · subst heq
          exact hndV hx
        · exact havoid x hx hxv
  | case5 path rest visited nd hv hn =>
    intro hW1 hW2 hW3a hW3b hW4 hW5
    exfalso
    have hpath := hW1 path (List.mem_cons_self _ _)
    have hpathne : path ≠ [] := ne_nil_of_head? hpath.1
    exact hn (hW4 path (List.mem_cons_self _ _) _ (getLastD_mem hpathne))

lemma bfsLoop_post_start (M : List (List Nat)) (s g : Nat) (hsq : Square M)
    (hs : s < M.length) (hsg : s ≠ g) :
    (∃ p, bfsLoop M g [[s]] ∅ = .ok (some p) ∧ Walk M s g p ∧
      ∀ W, Walk M s g W → p.length ≤ W.length) ∨
    (bfsLoop M g [[s]] ∅ = .ok none ∧ ∀ W, ¬ Walk M s g W) := by
  apply bfsLoop_post M s g hsq [[s]] ∅
  · intro p hp
    rw [List.mem_singleton] at hp
    subst hp
    exact ⟨rfl, List.chain'_singleton s⟩
  · intro p hp
    rw [List.mem_singleton] at hp
    subst hp
    intro hmem
    rw [List.mem_singleton] at hmem
    exact hsg hmem.symm
  · exact List.pairwise_singleton _ _
  · intro p hp q hq
    rw [List.mem_singleton] at hp hq
    subst hp
    subst hq
    omega
  · intro p hp x hx
    rw [List.mem_singleton] at hp
    subst hp
    rw [List.mem_singleton] at hx
    exact hx ▸ hs
  · intro W hW
    refine ⟨[s], List.mem_singleton_self _, W, ?_, ?_, ?_⟩
    · exact hW
    · exact fun x _ => Finset.not_mem_empty x
    · simp only [List.length_singleton]
      omega

/-- C1 (claim theorem): for a square matrix and in-range endpoints,
`bfs_shortest_path` returns `[start]` when `start = goal`; otherwise it
returns a walk along existing edges from `start` to `goal` of minimal
length whenever one exists, and `ok none` (absent, not an error) when
`goal` is unreachable from `start`. -/
theorem bfs_shortest_path_correct (M : List (List Nat)) (s g : Nat)
    (hsq : Square M) (hs : s < M.length) (hg : g < M.length) :
    (s = g → bfs_shortest_path M s g = .ok (some [s])) ∧
    ((∃ W, Walk M s g W) → ∃ p, bfs_shortest_path M s g = .ok (some p) ∧
      Walk M s g p ∧ ∀ W, Walk M s g W → p.length ≤ W.length) ∧
    ((¬ ∃ W, Walk M s g W) → bfs_shortest_path M s g = .ok none) := by
  refine ⟨?_, ?_, ?_⟩
  · intro h
    rw [bfs_shortest_path, if_pos h]
  · intro hex
    by_cases hsg : s = g
    · subst hsg
      refine ⟨[s], by rw [bfs_shortest_path, if_pos rfl], walk_singleton M s,
        ?_⟩
      intro W hW
      have := walk_length_pos hW
      simp only [List.length_singleton]
      omega
    · rw [bfs_shortest_path, if_neg hsg]
      rcases bfsLoop_post_start M s g hsq hs hsg with ⟨p, hp, hw, hmin⟩ |
        ⟨hnone, hnowalk⟩
      · exact ⟨p, hp, hw, hmin⟩
      · obtain ⟨W, hW⟩ := hex
        exact absurd hW (hnowalk W)
  · intro hnex
    by_cases hsg : s = g
    · subst hsg
      exact absurd ⟨[s], walk_singleton M s⟩ hnex
    · rw [bfs_shortest_path, if_neg hsg]
      rcases bfsLoop_post_start M s g hsq hs hsg with ⟨p, hp, hw, hmin⟩ |
        ⟨hnone, hnowalk⟩
      · exact absurd ⟨p, hw⟩ hnex
      · exact hnone

/-- C1 (witness): the claim theorem applied to a concrete 2-node matrix with
an edge from 0 to 1 yields the minimal walk. -/
theorem bfs_shortest_path_correct_witness :
    ∃ p, bfs_shortest_path [[0, 1], [0, 0]] 0 1 = .ok (some p) ∧
      Walk [[0, 1], [0, 0]] 0 1 p ∧
      ∀ W, Walk [[0, 1], [0, 0]] 0 1 W → p.length ≤ W.length :=
  (bfs_shortest_path_correct [[0, 1], [0, 0]] 0 1 (by decide) (by decide)
    (by decide)).2.1 ⟨[0, 1], rfl, rfl, List.chain'_pair.mpr (by decide)⟩

/-- C4 (amended claim theorem): `bfs_shortest_path` fails with
`IndexOutOfRangeError` exactly when `start` is outside `[0, size)` and
`start ≠ goal`; in particular `start = goal = 5` on a smaller matrix
returns `[5]` without an error, and an out-of-range `goal` with an
in-range `start` terminates without an error instead of failing. -/
theorem bfs_error_iff (M : List (List Nat)) (s g : Nat) (hsq : Square M) :
    bfs_shortest_path M s g = .error .indexOutOfRange ↔
      (M.length ≤ s ∧ s ≠ g) := by
  constructor
  · intro herr
    by_cases hsg : s = g
    · rw [bfs_shortest_path, if_pos hsg] at herr
      exact Except.noConfusion herr
    · refine ⟨?_, hsg⟩
      by_contra hlt
      push_neg at hlt
      rw [bfs_shortest_path, if_neg hsg] at herr
      rcases bfsLoop_post_start M s g hsq hlt hsg with ⟨p, hp, -, -⟩ |
        ⟨hnone, -⟩
      · rw [hp] at herr
        exact Except.noConfusion herr
      · rw [hnone] at herr
        exact Except.noConfusion herr
  · rintro ⟨hge, hsg⟩
    rw [bfs_shortest_path, if_neg hsg]
    exact bfsLoop_cons_oor M g [s] [] ∅ (Finset.not_mem_empty s)
      (not_lt.mpr hge)

/-- C4 (witness): the amended claim theorem applied at a concrete
out-of-range start. -/
theorem bfs_error_iff_witness :
    bfs_shortest_path [[0, 0], [0, 0]] 5 1 = .error .indexOutOfRange :=
  (bfs_error_iff [[0, 0], [0, 0]] 5 1 (by decide)).mpr (by decide)

/-! ## Termination of the BFS loop, expressed with fuel -/

lemma bfsLoopF_nil (M : List (List Nat)) (goal fuel : Nat)
    (visited : Finset Nat) :
    bfsLoopF M goal (fuel + 1) [] visited = some (.ok none) := rfl

lemma bfsLoopF_cons_visited (M : List (List Nat)) (goal fuel : Nat)
    (path : List Nat) (rest : List (List Nat)) (visited : Finset Nat)
    (h : path.getLastD 0 ∈ visited) :
    bfsLoopF M goal (fuel + 1) (path :: rest) visited =
      bfsLoopF M goal fuel rest visited := by
  simp only [bfsLoopF]
  rw [if_pos h]

lemma bfsLoopF_cons_found (M : List (List Nat)) (goal fuel : Nat)
    (path : List Nat) (rest : List (List Nat)) (visited : Finset Nat)
    (h : path.getLastD 0 ∉ visited) (h2 : path.getLastD 0 < M.length)
    (found : List Nat)
    (hn : processNbrs path goal (nbrs M (path.getLastD 0)) = .inl found) :
    bfsLoopF M goal (fuel + 1) (path :: rest) visited =
      some (.ok (some found)) := by
  simp only [bfsLoopF]
  rw [if_neg h, if_pos h2, hn]

lemma bfsLoopF_cons_expand (M : List (List Nat)) (goal fuel : Nat)
    (path : List Nat) (rest : List (List Nat)) (visited : Finset Nat)
    (h : path.getLastD 0 ∉ visited) (h2 : path.getLastD 0 < M.length)
    (exts : List (List Nat))
    (hn : processNbrs path goal (nbrs M (path.getLastD 0)) = .inr exts) :
    bfsLoopF M goal (fuel + 1) (path :: rest) visited =
      bfsLoopF M goal fuel (rest ++ exts) (insert (path.getLastD 0) visited) := by
  simp only [bfsLoopF]
  rw [if_neg h, if_pos h2, hn]

lemma bfsLoopF_cons_oor (M : List (List Nat)) (goal fuel : Nat)
    (path : List Nat) (rest : List (List Nat)) (visited : Finset Nat)
    (h : path.getLastD 0 ∉ visited) (h2 : ¬ path.getLastD 0 < M.length) :
    bfsLoopF M goal (fuel + 1) (path :: rest) visited =
      some (.error .indexOutOfRange) := by
  simp only [bfsLoopF]
  rw [if_neg h, if_neg h2]

lemma bfsLoop_fuel (M : List (List Nat)) (goal : Nat) :
    ∀ (queue : List (List Nat)) (visited : Finset Nat),
      ∃ fuel, bfsLoopF M goal fuel queue visited =
        some (bfsLoop M goal queue visited) := by
  intro queue visited
  induction queue, visited using bfsLoop.induct M goal with
  | case1 visited =>
    exact ⟨1, by rw [bfsLoop_nil, bfsLoopF_nil]⟩
  | case2 path rest visited nd hv ih =>
    obtain ⟨f, hf⟩ := ih
    refine ⟨f + 1, ?_⟩
    rw [bfsLoop_cons_visited M goal path rest visited hv,
      bfsLoopF_cons_visited M goal f path rest visited hv, hf]
  | case3 path rest visited nd hv hn found hfound =>
    refine ⟨1, ?_⟩
    rw [bfsLoop_cons_found M goal path rest visited hv hn found hfound,
      bfsLoopF_cons_found M goal 0 path rest visited hv hn found hfound]
  | case4 path rest visited nd hv hn exts hexts ih =>
    obtain ⟨f, hf⟩ := ih
    refine ⟨f + 1, ?_⟩
    rw [bfsLoop_cons_expand M goal path rest visited hv hn exts hexts,
      bfsLoopF_cons_expand M goal f path rest visited hv hn exts hexts, hf]
  | case5 path rest visited nd hv hn =>
    refine ⟨1, ?_⟩
    rw [bfsLoop_cons_oor M goal path rest visited hv hn,
      bfsLoopF_cons_oor M goal 0 path rest visited hv hn]

/-- C10 (claim theorem): on every finite square matrix with in-range
endpoints the BFS loop terminates: some finite fuel makes the fuel-limited
loop `bfsF` finish with exactly the result of `bfs_shortest_path`. -/
theorem bfs_terminates (M : List (List Nat)) (s g : Nat) (hsq : Square M)
    (hs : s < M.length) (hg : g < M.length) :
    ∃ fuel, bfsF M s g fuel = some (bfs_shortest_path M s g) := by
  by_cases hsg : s = g
  · exact ⟨0, by rw [bfsF, if_pos hsg, bfs_shortest_path, if_pos hsg]⟩
  · obtain ⟨f, hf⟩ := bfsLoop_fuel M g [[s]] ∅
    exact ⟨f, by rw [bfsF, if_neg hsg, bfs_shortest_path, if_neg hsg, hf]⟩

/-- C10 (witness): termination witnessed on a concrete 2-node matrix. -/
theorem bfs_terminates_witness :
    ∃ fuel, bfsF [[0, 1], [0, 0]] 0 1 fuel =
      some (bfs_shortest_path [[0, 1], [0, 0]] 0 1) :=
  bfs_terminates [[0, 1], [0, 0]] 0 1 (by decide) (by decide) (by decide)
